import Mathlib

/-!
Verification development for the HWP template-substitution engine
(`scripts/hwp_filler.py`).  Byte buffers are modelled as `List Nat`
(each element a byte value), text as Lean `String`/`List Char`, and the
external collaborators (zlib's raw-DEFLATE codec, the olefile compound
parser, the file system) as explicit function parameters and association
lists.  All recursive scanners are written with structural fuel so every
definition evaluates inside the kernel.
-/

/-- Boolean test that `p` is a prefix of `s` (model of Python's
`bytes.startswith`, used to specify positions where `bytes.replace`
matches). -/
def isPref {α : Type} [DecidableEq α] : List α → List α → Bool
  | [], _ => true
  | _ :: _, [] => false
  | a :: p, b :: s => decide (a = b) && isPref p s

/-- Model of Python's `pattern in content` test for byte strings:
a contiguous-subsequence search. -/
def occursIn {α : Type} [DecidableEq α] (p : List α) : List α → Bool
  | [] => isPref p []
  | a :: t => isPref p (a :: t) || occursIn p t

/-- Fuel-driven core of `replaceAll`; the fuel is always at least the
length of the subject list, so the exhaustion branch is unreachable. -/
def replaceAux {α : Type} [DecidableEq α] (p v : List α) : Nat → List α → List α
  | _, [] => []
  | 0, s => s
  | fuel + 1, a :: t =>
    if p ≠ [] ∧ isPref p (a :: t) = true then
      v ++ replaceAux p v fuel ((a :: t).drop p.length)
    else
      a :: replaceAux p v fuel t

/-- Model of Python's `content.replace(p, v)` for a non-empty pattern
`p`: left-to-right, non-overlapping replacement of every occurrence
(`hwp_filler.py` line 136).  The program only ever calls it with the
UTF-16LE bytes of a marker, which are never empty. -/
def replaceAll {α : Type} [DecidableEq α] (p v s : List α) : List α :=
  replaceAux p v s.length s

/-- Fuel-driven core of `countOcc`. -/
def countAux {α : Type} [DecidableEq α] (p : List α) : Nat → List α → Nat
  | _, [] => 0
  | 0, _ => 0
  | fuel + 1, a :: t =>
    if p ≠ [] ∧ isPref p (a :: t) = true then
      1 + countAux p fuel ((a :: t).drop p.length)
    else
      countAux p fuel t

/-- Number of non-overlapping, left-to-right occurrences of `p` in `s`
(Python's `content.count(p)`), the count that `bytes.replace` replaces. -/
def countOcc {α : Type} [DecidableEq α] (p s : List α) : Nat :=
  countAux p s.length s

/-- Fuel-driven core of `splitBlocks`. -/
def splitAux {α : Type} [DecidableEq α] (p : List α) : Nat → List α → List (List α)
  | _, [] => [[]]
  | 0, s => [s]
  | fuel + 1, a :: t =>
    if p ≠ [] ∧ isPref p (a :: t) = true then
      [] :: splitAux p fuel ((a :: t).drop p.length)
    else
      match splitAux p fuel t with
      | [] => [[a]]
      | b :: bs => (a :: b) :: bs

/-- The blocks of `s` between the non-overlapping occurrences of `p`,
in scan order: `s` is the blocks joined by `p`, and `replaceAll`
produces the blocks joined by `v`. -/
def splitBlocks {α : Type} [DecidableEq α] (p s : List α) : List (List α) :=
  splitAux p s.length s

/-- Join a list of blocks with a separator. -/
def joinWith {α : Type} (sep : List α) : List (List α) → List α
  | [] => []
  | [b] => b
  | b :: b2 :: bs => b ++ sep ++ joinWith sep (b2 :: bs)

/-- No occurrence of `p` inside `u ++ w` straddles the boundary between
`u` and `w`: there is no match that starts inside `u` and runs past its
end. -/
def noSpan {α : Type} [DecidableEq α] (p u w : List α) : Prop :=
  ∀ i, i < u.length → u.length < i + p.length → isPref p ((u ++ w).drop i) = false

instance {α : Type} [DecidableEq α] (p u w : List α) : Decidable (noSpan p u w) := by
  unfold noSpan; infer_instance

/-! ### UTF-16LE encoding and decoding (Python `str.encode`/`bytes.decode`) -/

/-- UTF-16LE bytes of one Unicode scalar value: two bytes little-endian
for the BMP, a surrogate pair (four bytes) above it — the encoding
`str.encode(\x27utf-16le\x27)` uses. -/
def encChar (c : Char) : List Nat :=
  if c.val.toNat < 0x10000 then
    [c.val.toNat % 256, c.val.toNat / 256]
  else
    let r := c.val.toNat - 0x10000
    let hi := 0xD800 + r / 0x400
    let lo := 0xDC00 + r % 0x400
    [hi % 256, hi / 256, lo % 256, lo / 256]

/-- UTF-16LE bytes of a character list. -/
def encChars : List Char → List Nat
  | [] => []
  | c :: cs => encChar c ++ encChars cs

/-- UTF-16LE bytes of a string: model of `s.encode(\x27utf-16le\x27)`. -/
def utf16le (s : String) : List Nat := encChars s.data

/-- UTF-16LE bytes of the marker `\x7b\x7bfield\x7d\x7d` built by
`fill_hwp_template` (line 132: `(\x27\x7b\x7b\x27 + field + \x27\x7d\x7d\x27).encode(\x27utf-16le\x27)`). -/
def patBytes (field : String) : List Nat := utf16le ("\x7b\x7b" ++ field ++ "\x7d\x7d")

/-- Fuel-driven core of `decodeUtf16le`; the fuel is always at least
the length of the byte list, so the exhaustion branch is unreachable. -/
def decAux : Nat → List Nat → List Char
  | _, [] => []
  | _, [_] => []
  | 0, _ => []
  | fuel + 1, lo :: hi :: rest =>
    let u := lo % 256 + 256 * (hi % 256)
    if 0xD800 ≤ u ∧ u < 0xDC00 then
      match rest with
      | lo2 :: hi2 :: rest2 =>
        let u2 := lo2 % 256 + 256 * (hi2 % 256)
        if 0xDC00 ≤ u2 ∧ u2 < 0xE000 then
          Char.ofNat (0x10000 + (u - 0xD800) * 0x400 + (u2 - 0xDC00)) :: decAux fuel rest2
        else
          decAux fuel rest
      | _ => []
    else if 0xDC00 ≤ u ∧ u < 0xE000 then
      decAux fuel rest
    else
      Char.ofNat u :: decAux fuel rest

/-- Model of `bytes.decode(\x27utf-16le\x27, errors=\x27ignore\x27)`:
two-byte little-endian units, surrogate pairs combined, lone surrogates
and a trailing odd byte silently dropped. -/
def decodeUtf16le (s : List Nat) : List Char := decAux s.length s

/-! ### Field discovery (`find_text_in_section`, line 58) -/

/-- Fuel-driven scanner for the regular expression
`\x5c\x7b\x5c\x7b([^\x7d]+)\x5c\x7d\x5c\x7d` as `re.findall` applies it:
at each position try to match two opening braces, a non-empty maximal
run of non-closing-brace characters, and two closing braces; on failure
advance one character, on success resume after the match.  Returns every
captured name in scan order, duplicates included. -/
def scanAux : Nat → List Char → List (List Char)
  | _, [] => []
  | _, [_] => []
  | 0, _ => []
  | fuel + 1, c1 :: c2 :: rest =>
    if c1.toNat = 123 ∧ c2.toNat = 123 then
      let name := rest.takeWhile (fun c => c.toNat != 125)
      let rest2 := rest.drop name.length
      if name = [] then scanAux fuel (c2 :: rest)
      else
        match rest2 with
        | d1 :: d2 :: rest3 =>
          if d1.toNat = 125 ∧ d2.toNat = 125 then name :: scanAux fuel rest3
          else scanAux fuel (c2 :: rest)
        | _ => scanAux fuel (c2 :: rest)
    else scanAux fuel (c2 :: rest)

/-- All placeholder names found in a decoded text, in order of
appearance, one list entry per textual occurrence. -/
def scanFields (s : List Char) : List (List Char) := scanAux s.length s

/-- Model of `find_text_in_section`: decode the section bytes as
UTF-16LE (ignoring errors) and run the placeholder regular expression,
returning every match in order (line 64-67). -/
def findTextInSection (sectionData : List Nat) : List String :=
  (scanFields (decodeUtf16le sectionData)).map String.mk

/-! ### Stream codec (`decompress_stream` / `compress_stream`, lines 16-28)

zlib's raw-DEFLATE coder is an external C library; it is modelled as an
explicit pair of parameters `inflate` (which may fail, returning `none`)
and `deflate`.  The wrappers below are the repository's code. -/

/-- Model of `decompress_stream`: try raw-DEFLATE decoding and on any
failure return the input unchanged (the bare `except:` on line 20). -/
def decompress_stream (inflate : List Nat → Option (List Nat)) (data : List Nat) : List Nat :=
  match inflate data with
  | some r => r
  | none => data

/-- Model of `compress_stream`: raw DEFLATE at maximum level, no
framing; the codec itself is the external `deflate` parameter. -/
def compress_stream (deflate : List Nat → List Nat) (data : List Nat) : List Nat :=
  deflate data

/-! ### External data values (`json.load` results) and Python `str()` -/

mutual
/-- A JSON value as `json.load` produces it (numbers restricted to
integers; none of the claims involves floating point). -/
inductive JValue : Type where
  | jnull : JValue
  | jbool : Bool → JValue
  | jnum : Int → JValue
  | jstr : String → JValue
  | jarr : JArr → JValue
  | jobj : JObj → JValue

/-- The elements of a JSON array. -/
inductive JArr : Type where
  | nil : JArr
  | cons : JValue → JArr → JArr

/-- The key-value pairs of a JSON object, in insertion order (the order
Python dicts iterate in). -/
inductive JObj : Type where
  | nil : JObj
  | cons : String → JValue → JObj → JObj
end

/-- Python `repr` of a string, faithful for strings without quotes,
backslashes or control characters (the only ones the claims use). -/
def pyQuote (s : String) : String :=
  String.mk [Char.ofNat 39] ++ s ++ String.mk [Char.ofNat 39]

mutual
/-- Python `repr` of a JSON value as loaded by `json.load`. -/
def pyRepr : JValue → String
  | JValue.jnull => "None"
  | JValue.jbool true => "True"
  | JValue.jbool false => "False"
  | JValue.jnum n => toString n
  | JValue.jstr s => pyQuote s
  | JValue.jarr xs => "[" ++ pyReprArr xs ++ "]"
  | JValue.jobj fs => "\x7b" ++ pyReprObj fs ++ "\x7d"

/-- Comma-separated `repr` of array elements. -/
def pyReprArr : JArr → String
  | JArr.nil => ""
  | JArr.cons x JArr.nil => pyRepr x
  | JArr.cons x (JArr.cons y t) => pyRepr x ++ ", " ++ pyReprArr (JArr.cons y t)

/-- Comma-separated `repr` of object entries. -/
def pyReprObj : JObj → String
  | JObj.nil => ""
  | JObj.cons k v JObj.nil => pyQuote k ++ ": " ++ pyRepr v
  | JObj.cons k v (JObj.cons k2 v2 t) =>
    pyQuote k ++ ": " ++ pyRepr v ++ ", " ++ pyReprObj (JObj.cons k2 v2 t)
end

/-- Python `str()` as applied by `fill_hwp_template` (line 133,
`str(value)`): the identity on strings, `repr` otherwise — so a nested
list or dict is coerced to its textual representation, never rejected. -/
def pyStr : JValue → String
  | JValue.jstr s => s
  | v => pyRepr v

/-! ### Raw-byte substitution (`fill_hwp_template`, lines 126-141) -/

/-- One iteration of the loop on lines 130-137: build the UTF-16LE
marker for the field, and if it occurs in the buffer replace every
occurrence with the UTF-16LE value bytes. -/
def stepEntry (content : List Nat) (e : String × String) : List Nat :=
  if occursIn (patBytes e.1) content = true then
    replaceAll (patBytes e.1) (utf16le e.2) content
  else
    content

/-- The whole raw-byte pass: the substitution entries applied one after
another, in iteration order, each to the buffer the previous one
produced. -/
def applyEntries (entries : List (String × String)) (content : List Nat) : List Nat :=
  entries.foldl stepEntry content

/-- Stringify the entries of a JSON mapping, in iteration order, as
`str(value)` does inside the loop. -/
def stringifyEntries : JObj → List (String × String)
  | JObj.nil => []
  | JObj.cons k v t => (k, pyStr v) :: stringifyEntries t

/-! ### Structured pass (`replace_text_in_section`, lines 72-88, and the
loop on lines 103-118 whose result `streams_data` is never used) -/

/-- Does a stream path name a body section (`startswith(\x27BodyText/Section\x27)`)? -/
def isBodyText (path : String) : Bool := isPref ("BodyText/Section" : String).data path.data

/-- Model of `replace_text_in_section`: decode as UTF-16LE ignoring
errors, substitute every `\x7b\x7bfield\x7d\x7d` for each entry in turn,
re-encode.  When the data is not a mapping, `data.items()` raises and
the inner `except` returns the section unchanged.  (Faithful for
replacement values without backslashes: `re.sub` treats the value as a
replacement template, and on any error the same `except` path returns
the input.) -/
def replaceTextInSection (sectionData : List Nat) (d : JValue) : List Nat :=
  match d with
  | JValue.jobj entries =>
    encChars
      ((stringifyEntries entries).foldl
        (fun txt e => replaceAll ("\x7b\x7b" ++ e.1 ++ "\x7d\x7d").data e.2.data txt)
        (decodeUtf16le sectionData))
  | _ => sectionData

/-- The dead structured pass (lines 103-118): decompress each BodyText
stream, substitute in the decoded text, recompress; all other streams
pass through.  Its result is collected and then discarded. -/
def structuredPass (inflate : List Nat → Option (List Nat)) (deflate : List Nat → List Nat)
    (streams : List (String × List Nat)) (d : JValue) : List (String × List Nat) :=
  streams.map (fun e =>
    if isBodyText e.1 then
      (e.1, compress_stream deflate (replaceTextInSection (decompress_stream inflate e.2) d))
    else e)

/-! ### File system and orchestrator -/

/-- The file system as a path-to-bytes association list; the most
recent write for a path shadows older entries. -/
def FileSys : Type := List (String × List Nat)

/-- Read a file (Python `open(path, \x27rb\x27).read()`). -/
def readFS (fs : FileSys) (path : String) : Option (List Nat) :=
  List.lookup path fs

/-- Write a file (Python `open(path, \x27wb\x27).write(content)`). -/
def writeFS (fs : FileSys) (path : String) (content : List Nat) : FileSys :=
  (path, content) :: fs

/-- Model of `fill_hwp_template` (lines 90-150).  `parseOle` models the
external `olefile` parser (failing on a non-compound file, which the
outer `except` turns into `False`).  The structured pass is computed
into a local that is never read again; the persisted output is the raw
buffer with `applyEntries` applied.  `data.items()` on a non-mapping
raises `AttributeError`, caught by the outer `except`: the function
returns `False` and writes nothing. -/
def fillRun (parseOle : List Nat → Option (List (String × List Nat)))
    (inflate : List Nat → Option (List Nat)) (deflate : List Nat → List Nat)
    (fs : FileSys) (templatePath outputPath : String) (d : JValue) : FileSys × Bool :=
  match readFS fs templatePath with
  | none => (fs, false)
  | some content =>
    match parseOle content with
    | none => (fs, false)
    | some streams =>
      let _streamsData := structuredPass inflate deflate streams d
      match d with
      | JValue.jobj entries =>
        (writeFS fs outputPath (applyEntries (stringifyEntries entries) content), true)
      | _ => (fs, false)

/-- Model of the field-collection loop of `analyze_hwp_fields`
(lines 163-169): for each BodyText section, decompress, extract the
placeholder names, and extend the flat result list in stream order. -/
def analyzeFields (inflate : List Nat → Option (List Nat))
    (streams : List (String × List Nat)) : List String :=
  streams.foldl
    (fun acc e =>
      if isBodyText e.1 then acc ++ findTextInSection (decompress_stream inflate e.2) else acc)
    []

/-- Model of `analyze_hwp_fields` as a file-system transition: open and
read the template, parse the compound file, collect the fields.  Every
operation is a read; the function owns no write. -/
def analyzeRun (parseOle : List Nat → Option (List (String × List Nat)))
    (inflate : List Nat → Option (List Nat))
    (fs : FileSys) (path : String) : FileSys × Option (List String) :=
  match readFS fs path with
  | none => (fs, none)
  | some content =>
    match parseOle content with
    | none => (fs, none)
    | some streams => (fs, some (analyzeFields inflate streams))

/-! ### Side conditions for the amended C1 statement -/

/-- Along the sequential raw-byte pass on `u ++ patBytes g ++ x`, no
entry's marker bytes ever cross into or out of the `patBytes g` block,
and none occurs inside it. -/
def preserves (g : String) : List (String × String) → List Nat → List Nat → Prop
  | [], _, _ => True
  | e :: es, u, x =>
    (noSpan (patBytes e.1) u (patBytes g ++ x) ∧ noSpan (patBytes e.1) (u ++ patBytes g) x ∧
      countOcc (patBytes e.1) (patBytes g) = 0)
    ∧ preserves g es (stepEntry u e) (stepEntry x e)

/-- Decidability of `preserves`, used only to evaluate it on concrete
inputs. -/
def preservesDec (g : String) :
    (entries : List (String × String)) → (u x : List Nat) → Decidable (preserves g entries u x)
  | [], _, _ => Decidable.isTrue trivial
  | e :: es, u, x =>
    have : Decidable (preserves g es (stepEntry u e) (stepEntry x e)) := preservesDec g es _ _
    inferInstanceAs (Decidable (_ ∧ _))

instance (g : String) (entries : List (String × String)) (u x : List Nat) :
    Decidable (preserves g entries u x) := preservesDec g entries u x

/-- The section text `A\x7b\x7bx\x7d\x7dB\x7b\x7by\x7d\x7dC\x7b\x7bx\x7d\x7d`
from the field-discovery claim, as UTF-16LE bytes. -/
def sectionXYX : List Nat := utf16le "A\x7b\x7bx\x7d\x7dB\x7b\x7by\x7d\x7dC\x7b\x7bx\x7d\x7d"

/-- The template buffer `\x7b\x7bx\x7b\x7ba\x7d\x7d` of the C1
counterexample: it contains the placeholder named `x\x7b\x7ba` (a name
the discovery grammar accepts, since only the closing brace is excluded
from names), yet filling the unrelated field `a` destroys it. -/
def overlapTemplate : List Nat := utf16le "\x7b\x7bx\x7b\x7ba\x7d\x7d"

/-! ### Lemmas about `isPref` and `occursIn` -/

theorem isPref_iff {α : Type} [DecidableEq α] :
    ∀ (p s : List α), isPref p s = true ↔ ∃ r, p ++ r = s := by
  intro p
  induction p with
  | nil => intro s; simp [isPref]
  | cons a p ih =>
    intro s
    cases s with
    | nil => simp [isPref]
    | cons b s =>
      simp only [isPref, Bool.and_eq_true, decide_eq_true_eq, ih, List.cons_append]
      constructor
      · rintro ⟨hab, r, hr⟩
        exact ⟨r, by rw [hab, hr]⟩
      · rintro ⟨r, hr⟩
        injection hr with h1 h2
        exact ⟨h1, r, h2⟩

theorem isPref_append_of {α : Type} [DecidableEq α] {p u : List α} (w : List α)
    (h : isPref p u = true) : isPref p (u ++ w) = true := by
  obtain ⟨r, hr⟩ := (isPref_iff p u).mp h
  exact (isPref_iff p (u ++ w)).mpr ⟨r ++ w, by rw [← hr, List.append_assoc]⟩

theorem length_le_of_isPref {α : Type} [DecidableEq α] {p s : List α}
    (h : isPref p s = true) : p.length ≤ s.length := by
  obtain ⟨r, hr⟩ := (isPref_iff p s).mp h
  rw [← hr, List.length_append]
  omega

theorem isPref_restore {α : Type} [DecidableEq α] {p s : List α}
    (h : isPref p s = true) : p ++ s.drop p.length = s := by
  obtain ⟨r, hr⟩ := (isPref_iff p s).mp h
  rw [← hr, List.drop_left]

theorem isPref_of_append_le {α : Type} [DecidableEq α] {p u : List α} (w : List α)
    (h : isPref p (u ++ w) = true) (hle : p.length ≤ u.length) : isPref p u = true := by
  obtain ⟨r, hr⟩ := (isPref_iff p (u ++ w)).mp h
  refine (isPref_iff p u).mpr ⟨u.drop p.length, ?_⟩
  have htake : (u ++ w).take p.length = p := by
    rw [← hr, List.take_left]
  rw [List.take_append_eq_append_take, Nat.sub_eq_zero_of_le hle, List.take_zero,
    List.append_nil] at htake
  have hsplit := List.take_append_drop p.length u
  rw [htake] at hsplit
  exact hsplit

theorem isPref_nil_of_ne {α : Type} [DecidableEq α] {p : List α} (hp : p ≠ []) :
    isPref p ([] : List α) = false := by
  cases p with
  | nil => exact absurd rfl hp
  | cons a t => rfl

theorem occursIn_append_right {α : Type} [DecidableEq α] {p w : List α} (u : List α)
    (h : occursIn p w = true) : occursIn p (u ++ w) = true := by
  induction u with
  | nil => simpa using h
  | cons a u ih =>
    rw [List.cons_append]
    simp only [occursIn, Bool.or_eq_true]
    exact Or.inr ih

theorem occursIn_append_left {α : Type} [DecidableEq α] {p u : List α} (w : List α)
    (h : occursIn p u = true) : occursIn p (u ++ w) = true := by
  induction u with
  | nil =>
    have hp : p = [] := by
      simp only [occursIn] at h
      obtain ⟨r, hr⟩ := (isPref_iff p []).mp h
      cases p with
      | nil => rfl
      | cons a t => simp at hr
    subst hp
    cases w with
    | nil => simpa using h
    | cons b t => simp [occursIn, isPref]
  | cons a u ih =>
    simp only [occursIn, Bool.or_eq_true] at h
    rw [List.cons_append]
    simp only [occursIn, Bool.or_eq_true]
    rcases h with h | h
    · refine Or.inl ?_
      have := isPref_append_of (p := p) (u := a :: u) w h
      rwa [List.cons_append] at this
    · exact Or.inr (ih h)

/-! ### Unfolding equations for the fuelled scanners -/

theorem list_strong_ind {α : Type} (P : List α → Prop)
    (h : ∀ s : List α, (∀ t : List α, t.length < s.length → P t) → P s) : ∀ s, P s := by
  have key : ∀ n (s : List α), s.length ≤ n → P s := by
    intro n
    induction n with
    | zero =>
      intro s hs
      exact h s (fun t ht => absurd (Nat.lt_of_lt_of_le ht hs) (Nat.not_lt_zero _))
    | succ n ih =>
      intro s hs
      exact h s (fun t ht => ih t (by omega))
  intro s
  exact key s.length s le_rfl

theorem replaceAux_irrel {α : Type} [DecidableEq α] (p v : List α) :
    ∀ f1 f2 s, s.length ≤ f1 → s.length ≤ f2 → replaceAux p v f1 s = replaceAux p v f2 s := by
  intro f1
  induction f1 with
  | zero =>
    intro f2 s h1 h2
    have : s = [] := List.eq_nil_of_length_eq_zero (Nat.le_zero.mp h1)
    subst this
    cases f2 <;> simp [replaceAux]
  | succ f1 ih =>
    intro f2 s h1 h2
    cases s with
    | nil => cases f2 <;> simp [replaceAux]
    | cons a t =>
      cases f2 with
      | zero => simp only [List.length_cons] at h2; omega
      | succ f2 =>
        simp only [replaceAux]
        by_cases hc : p ≠ [] ∧ isPref p (a :: t) = true
        · rw [if_pos hc, if_pos hc]
          have hplen : 0 < p.length := List.length_pos.mpr hc.1
          simp only [List.length_cons] at h1 h2
          have hl1 : ((a :: t).drop p.length).length ≤ f1 := by
            simp only [List.length_drop, List.length_cons]; omega
          have hl2 : ((a :: t).drop p.length).length ≤ f2 := by
            simp only [List.length_drop, List.length_cons]; omega
          rw [ih f2 _ hl1 hl2]
        · rw [if_neg hc, if_neg hc]
          simp only [List.length_cons] at h1 h2
          rw [ih f2 t (by omega) (by omega)]

theorem countAux_irrel {α : Type} [DecidableEq α] (p : List α) :
    ∀ f1 f2 s, s.length ≤ f1 → s.length ≤ f2 → countAux p f1 s = countAux p f2 s := by
  intro f1
  induction f1 with
  | zero =>
    intro f2 s h1 h2
    have : s = [] := List.eq_nil_of_length_eq_zero (Nat.le_zero.mp h1)
    subst this
    cases f2 <;> simp [countAux]
  | succ f1 ih =>
    intro f2 s h1 h2
    cases s with
    | nil => cases f2 <;> simp [countAux]
    | cons a t =>
      cases f2 with
      | zero => simp only [List.length_cons] at h2; omega
      | succ f2 =>
        simp only [countAux]
        by_cases hc : p ≠ [] ∧ isPref p (a :: t) = true
        · rw [if_pos hc, if_pos hc]
          have hplen : 0 < p.length := List.length_pos.mpr hc.1
          simp only [List.length_cons] at h1 h2
          have hl1 : ((a :: t).drop p.length).length ≤ f1 := by
            simp only [List.length_drop, List.length_cons]; omega
          have hl2 : ((a :: t).drop p.length).length ≤ f2 := by
            simp only [List.length_drop, List.length_cons]; omega
          rw [ih f2 _ hl1 hl2]
        · rw [if_neg hc, if_neg hc]
          simp only [List.length_cons] at h1 h2
          rw [ih f2 t (by omega) (by omega)]

theorem splitAux_irrel {α : Type} [DecidableEq α] (p : List α) :
    ∀ f1 f2 s, s.length ≤ f1 → s.length ≤ f2 → splitAux p f1 s = splitAux p f2 s := by
  intro f1
  induction f1 with
  | zero =>
    intro f2 s h1 h2
    have : s = [] := List.eq_nil_of_length_eq_zero (Nat.le_zero.mp h1)
    subst this
    cases f2 <;> simp [splitAux]
  | succ f1 ih =>
    intro f2 s h1 h2
    cases s with
    | nil => cases f2 <;> simp [splitAux]
    | cons a t =>
      cases f2 with
      | zero => simp only [List.length_cons] at h2; omega
      | succ f2 =>
        simp only [splitAux]
        by_cases hc : p ≠ [] ∧ isPref p (a :: t) = true
        · rw [if_pos hc, if_pos hc]
          have hplen : 0 < p.length := List.length_pos.mpr hc.1
          simp only [List.length_cons] at h1 h2
          have hl1 : ((a :: t).drop p.length).length ≤ f1 := by
            simp only [List.length_drop, List.length_cons]; omega
          have hl2 : ((a :: t).drop p.length).length ≤ f2 := by
            simp only [List.length_drop, List.length_cons]; omega
          rw [ih f2 _ hl1 hl2]
        · rw [if_neg hc, if_neg hc]
          simp only [List.length_cons] at h1 h2
          rw [ih f2 t (by omega) (by omega)]

theorem replaceAll_nil {α : Type} [DecidableEq α] (p v : List α) :
    replaceAll p v [] = [] := rfl

theorem countOcc_nil {α : Type} [DecidableEq α] (p : List α) : countOcc p [] = 0 := rfl

theorem splitBlocks_nil {α : Type} [DecidableEq α] (p : List α) :
    splitBlocks p [] = [[]] := rfl

theorem replaceAll_cons {α : Type} [DecidableEq α] (p v : List α) (a : α) (t : List α) :
    replaceAll p v (a :: t) =
      if p ≠ [] ∧ isPref p (a :: t) = true then
        v ++ replaceAll p v ((a :: t).drop p.length)
      else a :: replaceAll p v t := by
  unfold replaceAll
  simp only [List.length_cons, replaceAux]
  by_cases hc : p ≠ [] ∧ isPref p (a :: t) = true
  · rw [if_pos hc, if_pos hc]
    have hplen : 0 < p.length := List.length_pos.mpr hc.1
    congr 1
    exact replaceAux_irrel p v t.length _ _
      (by simp only [List.length_drop, List.length_cons]; omega) le_rfl
  · rw [if_neg hc, if_neg hc]

theorem countOcc_cons {α : Type} [DecidableEq α] (p : List α) (a : α) (t : List α) :
    countOcc p (a :: t) =
      if p ≠ [] ∧ isPref p (a :: t) = true then
        1 + countOcc p ((a :: t).drop p.length)
      else countOcc p t := by
  unfold countOcc
  simp only [List.length_cons, countAux]
  by_cases hc : p ≠ [] ∧ isPref p (a :: t) = true
  · rw [if_pos hc, if_pos hc]
    have hplen : 0 < p.length := List.length_pos.mpr hc.1
    congr 1
    exact countAux_irrel p t.length _ _
      (by simp only [List.length_drop, List.length_cons]; omega) le_rfl
  · rw [if_neg hc, if_neg hc]

theorem splitBlocks_cons {α : Type} [DecidableEq α] (p : List α) (a : α) (t : List α) :
    splitBlocks p (a :: t) =
      if p ≠ [] ∧ isPref p (a :: t) = true then
        [] :: splitBlocks p ((a :: t).drop p.length)
      else
        match splitBlocks p t with
        | [] => [[a]]
        | b :: bs => (a :: b) :: bs := by
  unfold splitBlocks
  simp only [List.length_cons, splitAux]
  by_cases hc : p ≠ [] ∧ isPref p (a :: t) = true
  · rw [if_pos hc, if_pos hc]
    have hplen : 0 < p.length := List.length_pos.mpr hc.1
    congr 1
    exact splitAux_irrel p t.length _ _
      (by simp only [List.length_drop, List.length_cons]; omega) le_rfl
  · rw [if_neg hc, if_neg hc]

/-! ### The block decomposition computed by `replaceAll` -/

theorem joinWith_cons_cons {α : Type} (sep : List α) (a : α) (b : List α)
    (bs : List (List α)) : joinWith sep ((a :: b) :: bs) = a :: joinWith sep (b :: bs) := by
  cases bs with
  | nil => rfl
  | cons c cs => simp [joinWith]

theorem joinWith_nil_cons {α : Type} (sep : List α) (b : List α) (bs : List (List α)) :
    joinWith sep ([] :: b :: bs) = sep ++ joinWith sep (b :: bs) := rfl

theorem joinWith_head {α : Type} (sep : List α) (b : List α) (bs : List (List α)) :
    ∃ r, joinWith sep (b :: bs) = b ++ r := by
  cases bs with
  | nil => exact ⟨[], by simp [joinWith]⟩
  | cons c cs => exact ⟨sep ++ joinWith sep (c :: cs), by simp [joinWith, List.append_assoc]⟩

theorem splitBlocks_ne_nil {α : Type} [DecidableEq α] (p s : List α) :
    splitBlocks p s ≠ [] := by
  cases s with
  | nil => simp [splitBlocks_nil]
  | cons a t =>
    rw [splitBlocks_cons]
    by_cases hc : p ≠ [] ∧ isPref p (a :: t) = true
    · simp [hc]
    · rw [if_neg hc]
      cases splitBlocks p t <;> simp

theorem splitBlocks_join {α : Type} [DecidableEq α] (p : List α) (hp : p ≠ []) :
    ∀ s, joinWith p (splitBlocks p s) = s := by
  refine list_strong_ind _ ?_
  intro s ih
  cases s with
  | nil => rfl
  | cons a t =>
    have hplen : 0 < p.length := List.length_pos.mpr hp
    rw [splitBlocks_cons]
    by_cases hc : p ≠ [] ∧ isPref p (a :: t) = true
    · rw [if_pos hc]
      obtain ⟨b, bs, hbs⟩ : ∃ b bs, splitBlocks p ((a :: t).drop p.length) = b :: bs := by
        cases h : splitBlocks p ((a :: t).drop p.length) with
        | nil => exact absurd h (splitBlocks_ne_nil _ _)
        | cons b bs => exact ⟨b, bs, rfl⟩
      rw [hbs, joinWith_nil_cons, ← hbs,
        ih _ (by simp only [List.length_drop, List.length_cons]; omega)]
      exact isPref_restore hc.2
    · rw [if_neg hc]
      obtain ⟨b, bs, hbs⟩ : ∃ b bs, splitBlocks p t = b :: bs := by
        cases h : splitBlocks p t with
        | nil => exact absurd h (splitBlocks_ne_nil _ _)
        | cons b bs => exact ⟨b, bs, rfl⟩
      rw [hbs]
      show joinWith p ((a :: b) :: bs) = a :: t
      rw [joinWith_cons_cons, ← hbs, ih t (by simp)]

theorem replaceAll_join {α : Type} [DecidableEq α] (p v : List α) (hp : p ≠ []) :
    ∀ s, replaceAll p v s = joinWith v (splitBlocks p s) := by
  refine list_strong_ind _ ?_
  intro s ih
  cases s with
  | nil => rfl
  | cons a t =>
    have hplen : 0 < p.length := List.length_pos.mpr hp
    rw [replaceAll_cons, splitBlocks_cons]
    by_cases hc : p ≠ [] ∧ isPref p (a :: t) = true
    · rw [if_pos hc, if_pos hc]
      obtain ⟨b, bs, hbs⟩ : ∃ b bs, splitBlocks p ((a :: t).drop p.length) = b :: bs := by
        cases h : splitBlocks p ((a :: t).drop p.length) with
        | nil => exact absurd h (splitBlocks_ne_nil _ _)
        | cons b bs => exact ⟨b, bs, rfl⟩
      rw [hbs, joinWith_nil_cons, ← hbs,
        ih _ (by simp only [List.length_drop, List.length_cons]; omega)]
    · rw [if_neg hc, if_neg hc]
      obtain ⟨b, bs, hbs⟩ : ∃ b bs, splitBlocks p t = b :: bs := by
        cases h : splitBlocks p t with
        | nil => exact absurd h (splitBlocks_ne_nil _ _)
        | cons b bs => exact ⟨b, bs, rfl⟩
      rw [hbs]
      show a :: replaceAll p v t = joinWith v ((a :: b) :: bs)
      rw [joinWith_cons_cons, ← hbs, ih t (by simp)]

theorem splitBlocks_no_occ {α : Type} [DecidableEq α] (p : List α) (hp : p ≠ []) :
    ∀ s, ∀ b ∈ splitBlocks p s, occursIn p b = false := by
  refine list_strong_ind _ ?_
  intro s ih
  cases s with
  | nil =>
    intro b hb
    rw [splitBlocks_nil] at hb
    rw [List.mem_singleton.mp hb]
    simp [occursIn, isPref_nil_of_ne hp]
  | cons a t =>
    have hplen : 0 < p.length := List.length_pos.mpr hp
    intro b hb
    rw [splitBlocks_cons] at hb
    by_cases hc : p ≠ [] ∧ isPref p (a :: t) = true
    · rw [if_pos hc] at hb
      rcases List.mem_cons.mp hb with hb | hb
      · rw [hb]; simp [occursIn, isPref_nil_of_ne hp]
      · exact ih _ (by simp only [List.length_drop, List.length_cons]; omega) b hb
    · rw [if_neg hc] at hb
      obtain ⟨b0, bs, hbs⟩ : ∃ b0 bs, splitBlocks p t = b0 :: bs := by
        cases h : splitBlocks p t with
        | nil => exact absurd h (splitBlocks_ne_nil _ _)
        | cons b0 bs => exact ⟨b0, bs, rfl⟩
      rw [hbs] at hb
      have hb' : b ∈ (a :: b0) :: bs := hb
      rcases List.mem_cons.mp hb' with hb1 | hb1
      · subst hb1
        have hocc0 : occursIn p b0 = false :=
          ih t (by simp) b0 (by rw [hbs]; exact List.mem_cons_self _ _)
        have hnp : isPref p (a :: b0) = false := by
          cases hpf : isPref p (a :: b0) with
          | false => rfl
          | true =>
            obtain ⟨r, hr⟩ := joinWith_head p b0 bs
            have hjoin : joinWith p (splitBlocks p t) = t := splitBlocks_join p hp t
            rw [hbs, hr] at hjoin
            have : isPref p (a :: t) = true := by
              rw [← hjoin, ← List.cons_append]
              exact isPref_append_of r hpf
            exact absurd ⟨hp, this⟩ hc
        simp [occursIn, hnp, hocc0]
      · exact ih t (by simp) b (by rw [hbs]; exact List.mem_cons_of_mem _ hb1)

/-! ### Counting lemmas -/

theorem replaceAll_of_countOcc_zero {α : Type} [DecidableEq α] (p v : List α) :
    ∀ s, countOcc p s = 0 → replaceAll p v s = s := by
  intro s
  induction s with
  | nil => intro _; rfl
  | cons a t ih =>
    intro h
    rw [countOcc_cons] at h
    rw [replaceAll_cons]
    by_cases hc : p ≠ [] ∧ isPref p (a :: t) = true
    · rw [if_pos hc] at h; omega
    · rw [if_neg hc] at h
      rw [if_neg hc, ih h]

theorem occursIn_false_iff_countOcc_zero {α : Type} [DecidableEq α] (p : List α)
    (hp : p ≠ []) : ∀ s, occursIn p s = false ↔ countOcc p s = 0 := by
  intro s
  induction s with
  | nil => simp [occursIn, isPref_nil_of_ne hp, countOcc_nil]
  | cons a t ih =>
    rw [countOcc_cons]
    by_cases hc : p ≠ [] ∧ isPref p (a :: t) = true
    · rw [if_pos hc]
      simp only [occursIn, hc.2, Bool.true_or]
      constructor
      · intro h; cases h
      · intro h; omega
    · have hpf : isPref p (a :: t) = false := by
        cases hpf : isPref p (a :: t) with
        | true => exact absurd ⟨hp, hpf⟩ hc
        | false => rfl
      rw [if_neg hc]
      simp only [occursIn, hpf, Bool.false_or]
      exact ih

theorem length_replaceAll {α : Type} [DecidableEq α] (p v : List α) (hp : p ≠ []) :
    ∀ s : List α, ((replaceAll p v s).length : Int) =
      (s.length : Int) + ((v.length : Int) - (p.length : Int)) * (countOcc p s : Int) := by
  refine list_strong_ind _ ?_
  intro s ih
  cases s with
  | nil => simp [replaceAll_nil, countOcc_nil]
  | cons a t =>
    have hplen : 0 < p.length := List.length_pos.mpr hp
    rw [replaceAll_cons, countOcc_cons]
    by_cases hc : p ≠ [] ∧ isPref p (a :: t) = true
    · rw [if_pos hc, if_pos hc]
      have hple : p.length ≤ t.length + 1 := by
        have := length_le_of_isPref hc.2
        simpa using this
      have hdrop : ((a :: t).drop p.length).length = t.length + 1 - p.length := by
        simp [List.length_drop]
      rw [List.length_append, Nat.cast_add,
        ih _ (by rw [hdrop]; simp only [List.length_cons]; omega), hdrop]
      have h1 : ((t.length + 1 - p.length : Nat) : Int) =
          (t.length : Int) + 1 - (p.length : Int) := by
        push_cast [hple]
        omega
      rw [h1]
      simp only [List.length_cons]
      push_cast
      ring
    · rw [if_neg hc, if_neg hc]
      simp only [List.length_cons]
      push_cast
      rw [ih t (by simp)]
      ring

/-! ### Splitting `replaceAll` across non-spanned boundaries -/

theorem noSpan_tail {α : Type} [DecidableEq α] {p : List α} {a : α} {u w : List α}
    (h : noSpan p (a :: u) w) : noSpan p u w := by
  intro i hi1 hi2
  have h2 := h (i + 1) (by simp only [List.length_cons]; omega)
    (by simp only [List.length_cons]; omega)
  rw [List.cons_append, List.drop_succ_cons] at h2
  exact h2

theorem noSpan_drop {α : Type} [DecidableEq α] {p u w : List α}
    (h : noSpan p u w) (hle : p.length ≤ u.length) : noSpan p (u.drop p.length) w := by
  intro i hi1 hi2
  rw [List.length_drop] at hi1 hi2
  have h2 := h (i + p.length) (by omega) (by omega)
  have heq : (u.drop p.length ++ w).drop i = (u ++ w).drop (i + p.length) := by
    have hsplit : (u ++ w).drop p.length = u.drop p.length ++ w := by
      rw [List.drop_append_eq_append_drop, Nat.sub_eq_zero_of_le hle, List.drop_zero]
    rw [← hsplit, List.drop_drop, Nat.add_comm p.length i]
  rw [heq]
  exact h2

theorem noSpan_shrink {α : Type} [DecidableEq α] {p u w x : List α}
    (h : noSpan p u (w ++ x)) : noSpan p u w := by
  intro i hi1 hi2
  have h2 := h i hi1 hi2
  cases hpf : isPref p ((u ++ w).drop i) with
  | false => rfl
  | true =>
    exfalso
    have hgrow : isPref p ((u ++ w).drop i ++ x) = true := isPref_append_of x hpf
    have hi : i ≤ (u ++ w).length := by
      rw [List.length_append]
      omega
    have hsplit : ((u ++ w) ++ x).drop i = (u ++ w).drop i ++ x := by
      rw [List.drop_append_eq_append_drop, Nat.sub_eq_zero_of_le hi, List.drop_zero]
    rw [← hsplit, List.append_assoc] at hgrow
    rw [h2] at hgrow
    cases hgrow

theorem replaceAll_append_of_noSpan {α : Type} [DecidableEq α] (p v : List α)
    (hp : p ≠ []) :
    ∀ u w : List α, noSpan p u w →
      replaceAll p v (u ++ w) = replaceAll p v u ++ replaceAll p v w := by
  refine list_strong_ind
    (fun u => ∀ w : List α, noSpan p u w →
      replaceAll p v (u ++ w) = replaceAll p v u ++ replaceAll p v w) ?_
  intro u ih w hns
  cases u with
  | nil => simp [replaceAll_nil]
  | cons a t =>
    have hplen : 0 < p.length := List.length_pos.mpr hp
    rw [List.cons_append, replaceAll_cons p v a (t ++ w)]
    by_cases hpf : isPref p (a :: (t ++ w)) = true
    · rw [if_pos ⟨hp, hpf⟩]
      have hple : p.length ≤ t.length + 1 := by
        by_contra hgt
        push_neg at hgt
        have hzero := hns 0 (by simp) (by simp only [List.length_cons]; omega)
        rw [List.drop_zero, List.cons_append] at hzero
        rw [hpf] at hzero
        cases hzero
      have hpfu : isPref p (a :: t) = true := by
        apply isPref_of_append_le w ?_ (by simpa using hple)
        rwa [List.cons_append]
      rw [replaceAll_cons p v a t, if_pos ⟨hp, hpfu⟩]
      have hdropeq : (a :: (t ++ w)).drop p.length = ((a :: t).drop p.length) ++ w := by
        rw [← List.cons_append, List.drop_append_eq_append_drop,
          Nat.sub_eq_zero_of_le (by simpa using hple), List.drop_zero]
      rw [hdropeq,
        ih ((a :: t).drop p.length)
          (by simp only [List.length_drop, List.length_cons]; omega) w
          (noSpan_drop hns (by simpa using hple)),
        List.append_assoc]
    · have hc : ¬(p ≠ [] ∧ isPref p (a :: (t ++ w)) = true) := fun hh => hpf hh.2
      rw [if_neg hc]
      have hpfu : ¬(p ≠ [] ∧ isPref p (a :: t) = true) := by
        rintro ⟨-, hpf2⟩
        apply hpf
        have hgrow := isPref_append_of w hpf2
        rwa [List.cons_append] at hgrow
      rw [replaceAll_cons p v a t, if_neg hpfu, List.cons_append]
      congr 1
      exact ih t (by simp) w (noSpan_tail hns)

theorem replaceAll_concat3 {α : Type} [DecidableEq α] (p v : List α) (hp : p ≠ [])
    (u w x : List α) (h1 : noSpan p u (w ++ x)) (h2 : noSpan p (u ++ w) x)
    (h0 : countOcc p w = 0) :
    replaceAll p v (u ++ (w ++ x)) = replaceAll p v u ++ (w ++ replaceAll p v x) := by
  have huw : noSpan p u w := noSpan_shrink h1
  calc replaceAll p v (u ++ (w ++ x))
      = replaceAll p v ((u ++ w) ++ x) := by rw [List.append_assoc]
    _ = replaceAll p v (u ++ w) ++ replaceAll p v x :=
        replaceAll_append_of_noSpan p v hp (u ++ w) x h2
    _ = (replaceAll p v u ++ replaceAll p v w) ++ replaceAll p v x := by
        rw [replaceAll_append_of_noSpan p v hp u w huw]
    _ = (replaceAll p v u ++ w) ++ replaceAll p v x := by
        rw [replaceAll_of_countOcc_zero p v w h0]
    _ = replaceAll p v u ++ (w ++ replaceAll p v x) := by rw [List.append_assoc]

/-! ### The raw-byte pass: basic shape -/

theorem patBytes_ne_nil (f : String) : patBytes f ≠ [] := by
  have h : patBytes f =
      123 :: 0 :: (123 :: 0 :: encChars (f.data ++ ("\x7d\x7d" : String).data)) := by
    unfold patBytes utf16le
    rw [String.data_append, String.data_append]
    have h2 : ("\x7b\x7b" : String).data = [Char.ofNat 123, Char.ofNat 123] := rfl
    rw [h2]
    have h3 : ([Char.ofNat 123, Char.ofNat 123] ++ f.data) ++ ("\x7d\x7d" : String).data
        = Char.ofNat 123 :: Char.ofNat 123 :: (f.data ++ ("\x7d\x7d" : String).data) := by
      simp
    rw [h3]
    rfl
  rw [h]
  simp

theorem stepEntry_eq_replaceAll (content : List Nat) (e : String × String) :
    stepEntry content e = replaceAll (patBytes e.1) (utf16le e.2) content := by
  unfold stepEntry
  by_cases h : occursIn (patBytes e.1) content = true
  · rw [if_pos h]
  · rw [if_neg h]
    have hocc : occursIn (patBytes e.1) content = false := by
      cases hx : occursIn (patBytes e.1) content with
      | true => exact absurd hx h
      | false => rfl
    rw [replaceAll_of_countOcc_zero _ _ _
      ((occursIn_false_iff_countOcc_zero _ (patBytes_ne_nil e.1) content).mp hocc)]

theorem applyEntries_nil (s : List Nat) : applyEntries [] s = s := rfl

theorem applyEntries_cons (e : String × String) (es : List (String × String))
    (s : List Nat) : applyEntries (e :: es) s = applyEntries es (stepEntry s e) := rfl

theorem applyEntries_preserves (g : String) :
    ∀ (entries : List (String × String)) (u x : List Nat),
      preserves g entries u x →
      applyEntries entries (u ++ (patBytes g ++ x)) =
        applyEntries entries u ++ (patBytes g ++ applyEntries entries x) := by
  intro entries
  induction entries with
  | nil => intro u x _; rfl
  | cons e es ih =>
    intro u x hpres
    simp only [preserves] at hpres
    obtain ⟨⟨h1, h2, h0⟩, htail⟩ := hpres
    rw [applyEntries_cons, applyEntries_cons, applyEntries_cons]
    have hstep : stepEntry (u ++ (patBytes g ++ x)) e =
        stepEntry u e ++ (patBytes g ++ stepEntry x e) := by
      rw [stepEntry_eq_replaceAll, stepEntry_eq_replaceAll, stepEntry_eq_replaceAll]
      exact replaceAll_concat3 _ _ (patBytes_ne_nil e.1) u (patBytes g) x h1 h2 h0
    rw [hstep]
    exact ih _ _ htail

theorem readFS_writeFS_same (fs : FileSys) (p : String) (b : List Nat) :
    readFS (writeFS fs p b) p = some b := by
  simp [readFS, writeFS, List.lookup]

/-- The flat JSON mapping `a` mapped to the nested array `[1]`, used to
exercise `fill` on a value that is not text or a number. -/
def nestedData : JValue :=
  JValue.jobj (JObj.cons "a" (JValue.jarr (JArr.cons (JValue.jnum 1) JArr.nil)) JObj.nil)

/-- A one-file file system holding a template whose whole content is the
UTF-16LE marker `\x7b\x7ba\x7d\x7d`. -/
def smallFS : FileSys := [("t", utf16le "\x7b\x7ba\x7d\x7d")]

/-! ## Claim theorems -/

/-- Claim C1, counterexample: the template `\x7b\x7bx\x7b\x7ba\x7d\x7d`
contains (by the program's own field-discovery grammar) exactly one
placeholder, named `x\x7b\x7ba`; that name is absent from the
substitution map `[(a, v)]`, yet after `fill` the placeholder's bytes no
longer occur in the output — filling the unrelated field `a` consumed
part of them.  So a placeholder whose field name is absent from the
SubstitutionMap is not always left byte-for-byte unchanged. -/
theorem placeholder_absent_field_destroyed :
    findTextInSection overlapTemplate = ["x\x7b\x7ba"] ∧
    ("x\x7b\x7ba" : String) ≠ "a" ∧
    occursIn (patBytes "x\x7b\x7ba") overlapTemplate = true ∧
    applyEntries [("a", "v")] overlapTemplate = utf16le "\x7b\x7bxv" ∧
    occursIn (patBytes "x\x7b\x7ba") (applyEntries [("a", "v")] overlapTemplate) = false :=
  ⟨by decide, by decide, by decide, by decide, by decide⟩

/-- Claim C1, amended: (1) each entry replaces every non-overlapping
left-to-right occurrence of its UTF-16LE marker by the UTF-16LE value
bytes — the buffer splits into blocks free of the marker, joined by the
marker before and by the value after; (2) an entry whose marker has zero
occurrences causes no change (and the operation is total, so no error);
(3) a placeholder whose field name is absent from the map remains
byte-for-byte unchanged in the output provided no entry's marker
occurrence ever overlaps the placeholder's bytes during the sequential
pass — the proviso the counterexample shows is necessary. -/
theorem raw_substitution_amended :
    (∀ (f v : String) (s : List Nat), ∃ blocks : List (List Nat),
        joinWith (patBytes f) blocks = s ∧
        stepEntry s (f, v) = joinWith (utf16le v) blocks ∧
        ∀ b ∈ blocks, occursIn (patBytes f) b = false) ∧
    (∀ (f v : String) (s : List Nat),
        countOcc (patBytes f) s = 0 → stepEntry s (f, v) = s) ∧
    (∀ (entries : List (String × String)) (u x : List Nat) (g : String),
        (∀ e ∈ entries, e.1 ≠ g) → preserves g entries u x →
        applyEntries entries (u ++ (patBytes g ++ x)) =
          applyEntries entries u ++ (patBytes g ++ applyEntries entries x)) := by
  refine ⟨?_, ?_, ?_⟩
  · intro f v s
    refine ⟨splitBlocks (patBytes f) s, splitBlocks_join _ (patBytes_ne_nil f) s, ?_,
      splitBlocks_no_occ _ (patBytes_ne_nil f) s⟩
    rw [stepEntry_eq_replaceAll]
    exact replaceAll_join _ _ (patBytes_ne_nil f) s
  · intro f v s h
    rw [stepEntry_eq_replaceAll]
    exact replaceAll_of_countOcc_zero _ _ _ h
  · intro entries u x g _ hpres
    exact applyEntries_preserves g entries u x hpres

/-- Witness for the amended C1 theorem at concrete inputs. -/
theorem raw_substitution_amended_witness :
    stepEntry (utf16le "Q") ("a", "v") = utf16le "Q" ∧
    applyEntries [("a", "v")] (utf16le "A" ++ (patBytes "b" ++ utf16le "B")) =
      applyEntries [("a", "v")] (utf16le "A") ++
        (patBytes "b" ++ applyEntries [("a", "v")] (utf16le "B")) := by
  refine ⟨raw_substitution_amended.2.1 "a" "v" (utf16le "Q") (by decide),
    raw_substitution_amended.2.2 [("a", "v")] (utf16le "A") (utf16le "B") "b" ?_ (by decide)⟩
  intro e he
  rw [List.mem_singleton.mp he]
  decide

/-- Claim C2: for an entry whose UTF-16LE value length differs from its
marker's, one raw-byte substitution step changes the buffer length by
exactly (value length minus marker length) times the number of
non-overlapping occurrences of the marker; and `fill` on the
single-entry map is exactly that step. -/
theorem size_delta_exact (f v : String) (s : List Nat)
    (hne : (utf16le v).length ≠ (patBytes f).length) :
    applyEntries [(f, v)] s = stepEntry s (f, v) ∧
    ((stepEntry s (f, v)).length : Int) =
      (s.length : Int) +
        (((utf16le v).length : Int) - ((patBytes f).length : Int)) *
          (countOcc (patBytes f) s : Int) := by
  refine ⟨rfl, ?_⟩
  rw [stepEntry_eq_replaceAll]
  exact length_replaceAll _ _ (patBytes_ne_nil f) s

/-- Witness for the C2 theorem at a concrete input. -/
theorem size_delta_exact_witness :
    (utf16le "xy").length ≠ (patBytes "a").length ∧
    (applyEntries [("a", "xy")] (patBytes "a") = stepEntry (patBytes "a") ("a", "xy") ∧
      ((stepEntry (patBytes "a") ("a", "xy")).length : Int) =
        ((patBytes "a").length : Int) +
          (((utf16le "xy").length : Int) - ((patBytes "a").length : Int)) *
            (countOcc (patBytes "a") (patBytes "a") : Int)) :=
  ⟨by decide, size_delta_exact "a" "xy" (patBytes "a") (by decide)⟩

/-- Claim C3: the codec round trip.  zlib's raw-DEFLATE coder is an
external C library, abstracted as the pair `inflate`/`deflate` with its
documented contract that decoding inverts encoding; under that contract
`decompress_stream` after `compress_stream` is the identity on every
byte sequence — in particular the permissive fallback of
`decompress_stream` never corrupts a successfully decoded stream. -/
theorem codec_round_trip (inflate : List Nat → Option (List Nat))
    (deflate : List Nat → List Nat)
    (hinv : ∀ b, inflate (deflate b) = some b) (x : List Nat) :
    decompress_stream inflate (compress_stream deflate x) = x := by
  unfold decompress_stream compress_stream
  rw [hinv]

/-- Witness for the C3 theorem at a concrete codec and input. -/
theorem codec_round_trip_witness :
    decompress_stream (fun b => some b) (compress_stream (fun b => b) [0, 1, 2]) = [0, 1, 2] :=
  codec_round_trip (fun b => some b) (fun b => b) (fun _ => rfl) [0, 1, 2]

/-- Claim C4: when the template can be read and parsed (the premise of
`fill` succeeding), `fill` with the empty SubstitutionMap reports
success and writes an output byte-identical to the template. -/
theorem fill_empty_map_identity (parseOle : List Nat → Option (List (String × List Nat)))
    (inflate : List Nat → Option (List Nat)) (deflate : List Nat → List Nat)
    (fs : FileSys) (tp op : String) (t : List Nat) (streams : List (String × List Nat))
    (hr : readFS fs tp = some t) (hp : parseOle t = some streams) :
    (fillRun parseOle inflate deflate fs tp op (JValue.jobj JObj.nil)).2 = true ∧
    readFS (fillRun parseOle inflate deflate fs tp op (JValue.jobj JObj.nil)).1 op = some t := by
  simp only [fillRun, hr, hp]
  exact ⟨trivial, readFS_writeFS_same fs op t⟩

/-- Witness for the C4 theorem at a concrete file system. -/
theorem fill_empty_map_identity_witness :
    (fillRun (fun _ => some []) (fun _ => none) (fun b => b)
        [("t", [1, 2, 3])] "t" "o" (JValue.jobj JObj.nil)).2 = true ∧
    readFS (fillRun (fun _ => some []) (fun _ => none) (fun b => b)
        [("t", [1, 2, 3])] "t" "o" (JValue.jobj JObj.nil)).1 "o" = some [1, 2, 3] :=
  fill_empty_map_identity (fun _ => some []) (fun _ => none) (fun b => b)
    [("t", [1, 2, 3])] "t" "o" [1, 2, 3] [] (by decide) rfl

/-- Claim C5, counterexample: on the section
`A\x7b\x7bx\x7d\x7dB\x7b\x7by\x7d\x7dC\x7b\x7bx\x7d\x7d` field discovery
returns the flat list `[x, y, x]` — the duplicate occurrence of `x` is
*not* aggregated into a single token with an occurrence count, so `x`
appears twice, refuting the claimed single FieldToken with count 2. -/
theorem extract_fields_not_aggregated :
    findTextInSection sectionXYX = ["x", "y", "x"] ∧
    (findTextInSection sectionXYX).count "x" ≠ 1 :=
  ⟨by decide, by decide⟩

/-- Claim C5, amended: field discovery is order-stable but does not
aggregate: every textual occurrence produces its own entry, in order of
appearance, and the analyzer concatenates the per-section lists
unchanged — `A\x7b\x7bx\x7d\x7dB\x7b\x7by\x7d\x7dC\x7b\x7bx\x7d\x7d`
yields `[x, y, x]`. -/
theorem extract_fields_order_amended (inflate : List Nat → Option (List Nat))
    (h : inflate sectionXYX = none) :
    findTextInSection sectionXYX = ["x", "y", "x"] ∧
    analyzeFields inflate [("BodyText/Section0", sectionXYX)] = ["x", "y", "x"] := by
  refine ⟨by decide, ?_⟩
  have hdec : decompress_stream inflate sectionXYX = sectionXYX := by
    unfold decompress_stream
    rw [h]
  unfold analyzeFields
  simp only [List.foldl_cons, List.foldl_nil]
  rw [if_pos (show isBodyText "BodyText/Section0" = true by decide), hdec]
  simp only [List.nil_append]
  decide

/-- Witness for the amended C5 theorem at a concrete failing inflater. -/
theorem extract_fields_order_amended_witness :
    findTextInSection sectionXYX = ["x", "y", "x"] ∧
    analyzeFields (fun _ => none) [("BodyText/Section0", sectionXYX)] = ["x", "y", "x"] :=
  extract_fields_order_amended (fun _ => none) rfl

/-- Claim C6, counterexample: with the data mapping `a` to the nested
array `[1]` — not text or a number — `fill` does not fail: it reports
success and writes the template with the marker replaced by the Python
string form `[1]` of the nested value. -/
theorem nested_value_coerced_success :
    (fillRun (fun _ => some []) (fun _ => none) (fun b => b) smallFS "t" "o" nestedData).2
        = true ∧
    readFS (fillRun (fun _ => some []) (fun _ => none) (fun b => b)
        smallFS "t" "o" nestedData).1 "o" = some (utf16le "[1]") :=
  ⟨by decide, by decide⟩

/-- Claim C6, amended: given a readable, parseable template, `fill`
fails exactly when the external data is not a mapping at all
(`data.items()` raises, the catch-all returns failure); a mapping whose
values are nested structures does not fail — each value is coerced with
`str()` and substituted. -/
theorem fill_fails_iff_not_mapping (parseOle : List Nat → Option (List (String × List Nat)))
    (inflate : List Nat → Option (List Nat)) (deflate : List Nat → List Nat)
    (fs : FileSys) (tp op : String) (d : JValue)
    (t : List Nat) (streams : List (String × List Nat))
    (hr : readFS fs tp = some t) (hp : parseOle t = some streams) :
    (fillRun parseOle inflate deflate fs tp op d).2 = true ↔
      ∃ es : JObj, d = JValue.jobj es := by
  cases d <;> simp [fillRun, hr, hp]

/-- Witness for the amended C6 theorem: a mapping succeeds, a bare
number as data source fails. -/
theorem fill_fails_iff_not_mapping_witness :
    (fillRun (fun _ => some []) (fun _ => none) (fun b => b) smallFS "t" "o"
        (JValue.jobj JObj.nil)).2 = true ∧
    (fillRun (fun _ => some []) (fun _ => none) (fun b => b) smallFS "t" "o"
        (JValue.jnum 3)).2 = false := by
  constructor
  · exact (fill_fails_iff_not_mapping (fun _ => some []) (fun _ => none) (fun b => b)
      smallFS "t" "o" (JValue.jobj JObj.nil) (utf16le "\x7b\x7ba\x7d\x7d") []
      (by decide) rfl).mpr ⟨JObj.nil, rfl⟩
  · have h := fill_fails_iff_not_mapping (fun _ => some []) (fun _ => none) (fun b => b)
      smallFS "t" "o" (JValue.jnum 3) (utf16le "\x7b\x7ba\x7d\x7d") [] (by decide) rfl
    cases hb : (fillRun (fun _ => some []) (fun _ => none) (fun b => b) smallFS "t" "o"
        (JValue.jnum 3)).2 with
    | false => rfl
    | true =>
      obtain ⟨es, hes⟩ := h.mp hb
      exact nomatch hes

/-- Claim C7: `analyze` never mutates anything: as a file-system
transition it returns the file system unchanged on every path — reading
the template, parsing it, and collecting fields own no write. -/
theorem analyze_preserves_fs (parseOle : List Nat → Option (List (String × List Nat)))
    (inflate : List Nat → Option (List Nat)) (fs : FileSys) (path : String) :
    (analyzeRun parseOle inflate fs path).1 = fs := by
  cases h1 : readFS fs path with
  | none => simp [analyzeRun, h1]
  | some content =>
    cases h2 : parseOle content with
    | none => simp [analyzeRun, h1, h2]
    | some streams => simp [analyzeRun, h1, h2]

/-- Claim C8: `decompress_stream` is total by construction, and on any
decoding failure (the external inflater returning `none`, standing for
a raised exception) it returns its input unchanged. -/
theorem decompress_permissive (inflate : List Nat → Option (List Nat)) (d : List Nat)
    (hfail : inflate d = none) : decompress_stream inflate d = d := by
  unfold decompress_stream
  rw [hfail]

/-- Witness for the C8 theorem at a concrete always-failing inflater. -/
theorem decompress_permissive_witness :
    decompress_stream (fun _ => none) [7, 7] = [7, 7] :=
  decompress_permissive (fun _ => none) [7, 7] rfl

/-- Claim C9: the structured pass never contributes to the persisted
output: `fill` is extensionally independent of the inflate/deflate codec
the structured pass uses, and on every successful run the written bytes
are exactly the raw-byte substitution applied to the original template
buffer. -/
theorem structured_pass_dead :
    (∀ (parseOle : List Nat → Option (List (String × List Nat)))
        (i1 : List Nat → Option (List Nat)) (d1 : List Nat → List Nat)
        (i2 : List Nat → Option (List Nat)) (d2 : List Nat → List Nat)
        (fs : FileSys) (tp op : String) (d : JValue),
        fillRun parseOle i1 d1 fs tp op d = fillRun parseOle i2 d2 fs tp op d) ∧
    (∀ (parseOle : List Nat → Option (List (String × List Nat)))
        (inflate : List Nat → Option (List Nat)) (deflate : List Nat → List Nat)
        (fs : FileSys) (tp op : String) (entries : JObj)
        (t : List Nat) (streams : List (String × List Nat)),
        readFS fs tp = some t → parseOle t = some streams →
        (fillRun parseOle inflate deflate fs tp op (JValue.jobj entries)).1 =
          writeFS fs op (applyEntries (stringifyEntries entries) t)) := by
  constructor
  · intro parseOle i1 d1 i2 d2 fs tp op d
    cases h1 : readFS fs tp with
    | none => simp [fillRun, h1]
    | some content =>
      cases h2 : parseOle content with
      | none => simp [fillRun, h1, h2]
      | some streams => cases d <;> simp [fillRun, h1, h2]
  · intro parseOle inflate deflate fs tp op entries t streams hr hp
    simp only [fillRun, hr, hp]

/-- Witness for the C9 theorem at a concrete run. -/
theorem structured_pass_dead_witness :
    (fillRun (fun _ => some []) (fun _ => none) (fun b => b) smallFS "t" "o"
        (JValue.jobj JObj.nil)).1 =
      writeFS smallFS "o"
        (applyEntries (stringifyEntries JObj.nil) (utf16le "\x7b\x7ba\x7d\x7d")) :=
  structured_pass_dead.2 (fun _ => some []) (fun _ => none) (fun b => b) smallFS "t" "o"
    JObj.nil (utf16le "\x7b\x7ba\x7d\x7d") [] (by decide) rfl

/-- Claim C10: raw-byte substitution is sequential, not simultaneous:
the entries are applied one after another in map iteration order, and a
marker injected by an earlier entry's value is replaced by a later
entry — `fill` of `\x7b\x7ba\x7d\x7d` with `a` mapped to the text
`\x7b\x7bb\x7d\x7d` and `b` mapped to `Z` yields `Z`, not the
simultaneous result `\x7b\x7bb\x7d\x7d`. -/
theorem substitution_sequential :
    (∀ (e1 e2 : String × String) (s : List Nat),
        applyEntries [e1, e2] s = stepEntry (stepEntry s e1) e2) ∧
    applyEntries [("a", "\x7b\x7bb\x7d\x7d"), ("b", "Z")] (utf16le "\x7b\x7ba\x7d\x7d") =
      utf16le "Z" ∧
    applyEntries [("a", "\x7b\x7bb\x7d\x7d"), ("b", "Z")] (utf16le "\x7b\x7ba\x7d\x7d") ≠
      utf16le "\x7b\x7bb\x7d\x7d" :=
  ⟨fun _ _ _ => rfl, by decide, by decide⟩
